import Mathlib

/-
Verification of the Rabin-fingerprint fold-table generator
(folly/build/GenerateFingerprintTables.cpp).

The generator drives a GF(2) polynomial engine (FingerprintPolynomial<DEG>,
declared in folly/detail/FingerprintPolynomial.h, whose source is not part of
this snapshot; its operations are modelled from the specification document).
A polynomial of degree at most DEG is embedded as the natural number whose
bit d is the coefficient of X^d; the serialized word layout (most-significant
word first, coefficients top-aligned inside 64*wordCount bits) is made
explicit by `wordOf` and `write`.
-/

set_option maxRecDepth 1000000
set_option maxHeartbeats 10000000

namespace FP

/-- Modelled from the spec: `FingerprintPolynomial<DEG>::size()` (the header is
absent from the snapshot), the word count for the configured degree; the code
uses `1 + DEG/64` words of 64 bits to hold the `DEG+1` coefficient bits. -/
def fpsize (D : Nat) : Nat := D / 64 + 1

/-- Number of unused low-order padding bits in the serialized word vector:
the `DEG+1` coefficient bits are top-aligned inside `64 * fpsize DEG` bits. -/
def padBits (D : Nat) : Nat := 64 * fpsize D - (D + 1)

/-- Modelled from the spec: word `w` (most-significant word first) of the
serialized form of the coefficient vector `t` (bit d of `t` is the coefficient
of `X^d`), as produced by `FingerprintPolynomial::write`. -/
def wordOf (D t w : Nat) : Nat :=
  ((t <<< padBits D) >>> (64 * (fpsize D - 1 - w))) % 2 ^ 64

/-- Modelled from the spec: `FingerprintPolynomial::write(buffer)`, the full
serialized word list, most-significant word first. -/
def write (D t : Nat) : List Nat := (List.range (fpsize D)).map (wordOf D t)

/-- Modelled from the spec: the `FingerprintPolynomial(const uint64_t* vals)`
constructor, recovering the coefficient vector from its serialized words
(most-significant first; the low `padBits` bits of the last word are padding). -/
def ofWords (D : Nat) (vals : List Nat) : Nat :=
  (vals.foldl (fun acc v => acc * 2 ^ 64 + v % 2 ^ 64) 0) >>> padBits D

/-- Modelled from the spec: `setHigh8Bits(x)` places the 8 bits of byte `x`
into the 8 most-significant coefficient positions (degrees `DEG` down to
`DEG-7`) of the `DEG+1`-bit vector and zeroes every other coefficient. -/
def setHigh8Bits (D x : Nat) : Nat := x * 2 ^ (D + 1 - 8)

/-- Modelled from the spec: one multiply-by-X step of `mulXkmod` — shift every
coefficient one position toward higher degree; if the shift pushes a 1-bit out
past degree `DEG` (the conceptual degree-`DEG+1` coefficient becomes 1),
eliminate it by XOR-ing the lower-degree part of the monic modulus `p`. -/
def mulX (D p t : Nat) : Nat :=
  if 2 ^ D ≤ t then (t * 2 - 2 ^ (D + 1)) ^^^ p else t * 2

/-- Modelled from the spec: `mulXkmod(k, p)` transforms `t` into
`t * X^k mod P` by applying the multiply-by-X-with-reduction step `k` times. -/
def mulXkmod (D k p t : Nat) : Nat :=
  match k with
  | 0 => t
  | k + 1 => mulXkmod D k p (mulX D p t)

/-- Builder state sequence of `computeTables` (src lines 74-81): for byte `x`,
a single shared polynomial `t` starts as `setHigh8Bits x` and is multiplied in
place by `X^8 mod P` once per fold position; `tableStates D p x i` is the
value of `t` at the moment `table[i][x]` is written. -/
def tableStates (D p x : Nat) : Nat → Nat
  | 0 => mulXkmod D 8 p (setHigh8Bits D x)
  | i + 1 => mulXkmod D 8 p (tableStates D p x i)

/-- Output of one `computeTables` call: the serialized modulus (`poly_val`,
src lines 85-86) and the fold table `table[i][x][w]` (src lines 69-81). -/
structure TablesOutput where
  polyRecord : List Nat
  table : List (List (List Nat))

/-- Embedding of `computeTables` (src lines 68-86): the fold table indexed
`[i][x][w]` together with the serialized modulus record. -/
def computeTables (D p : Nat) : TablesOutput :=
  { polyRecord := write D p
    table := (List.range 8).map fun i =>
      (List.range 256).map fun x => write D (tableStates D p x i) }

/-- Independent reference reduction, following the spec words: one long-division
step per leading position — if the bit at position `D + n` is set, XOR the full
monic modulus `X^D + plow` shifted up by `n` to cancel it; `fuel` bounds the
number of positions above `D-1` that are processed (enough fuel clears them all). -/
def gf2modAux (D plow : Nat) : Nat → Nat → Nat
  | 0, a => a
  | n + 1, a =>
      gf2modAux D plow n
        (if a.testBit (D + n) then a ^^^ ((2 ^ D + plow) <<< n) else a)

/-- Independent long-division remainder of `a` modulo the monic degree-`D`
polynomial `X^D + plow`, written from the spec description of polynomial
reduction (not from the engine); `fuel` must cover every bit of `a` at or
above position `D`. -/
def gf2mod (D plow fuel a : Nat) : Nat := gf2modAux D plow fuel a

/-- Configuration constants of the generator: the five polynomial gflags
(src lines 47-60), as the signed integer values the flags hold
(`poly64`, `poly96_m`, `poly128_m`, `poly128_l` are int64, `poly96_l` int32). -/
structure Config where
  poly64 : Int
  poly96_m : Int
  poly96_l : Int
  poly128_m : Int
  poly128_l : Int

/-- Reinterpretation of a signed flag value as an unsigned 64-bit word
(two's-complement wrap-around, as the C++ casts in main perform). -/
def toUInt64 (i : Int) : Nat := (i % (2 : Int) ^ 64).toNat

/-- Default flag values from src lines 47-60; the hex literals that do not fit
the signed flag type wrap to negative values, which the definitions record. -/
def defaultFlags : Config :=
  { poly64 := 0xbf3736b51869e9b7 - 2 ^ 64
    poly96_m := 0x51555cb0aa8d39c3
    poly96_l := 0xb679ec37 - 2 ^ 32
    poly128_m := 0xc91bff9b8768b51b - 2 ^ 64
    poly128_l := 0x8c5d5853bd77b0d3 - 2 ^ 64 }

/-- A configuration that differs from the defaults only in the 96-bit modulus
constants (used to exhibit cross-width noninterference). -/
def altFlags : Config := { defaultFlags with poly96_m := 1, poly96_l := 1 }

/-- Word array for the 64-bit modulus, as built in main line 143:
`(const uint64_t*)&FLAGS_poly64` reinterprets the signed flag bit-for-bit. -/
def poly64words (c : Config) : List Nat := [toUInt64 c.poly64]

/-- Word array for the 96-bit modulus, as built in main lines 146-148:
`poly96_val[0] = (uint64_t)FLAGS_poly96_m; poly96_val[1] = (uint64_t)FLAGS_poly96_l << 32`
(the shift is performed in uint64 and discards overflow modulo 2^64). -/
def poly96words (c : Config) : List Nat :=
  [toUInt64 c.poly96_m, toUInt64 c.poly96_l * 2 ^ 32 % 2 ^ 64]

/-- Word array for the 128-bit modulus, as built in main lines 151-153. -/
def poly128words (c : Config) : List Nat :=
  [toUInt64 c.poly128_m, toUInt64 c.poly128_l]

/-- The 64-bit width output of main (lines 143-144). -/
def out64 (c : Config) : TablesOutput := computeTables 63 (ofWords 63 (poly64words c))

/-- The 96-bit width output of main (lines 146-149). -/
def out96 (c : Config) : TablesOutput := computeTables 95 (ofWords 95 (poly96words c))

/-- The 128-bit width output of main (lines 151-154). -/
def out128 (c : Config) : TablesOutput := computeTables 127 (ofWords 127 (poly128words c))

/-- Full table output of one generator run (main lines 143-154): the three
widths, computed from the configuration constants alone. -/
def mainOutput (c : Config) : TablesOutput × TablesOutput × TablesOutput :=
  (out64 c, out96 c, out128 c)

/-- The 64-bit modulus coefficient vector constructed in main. -/
def poly64P : Nat := ofWords 63 (poly64words defaultFlags)

/-- The 96-bit modulus coefficient vector constructed in main. -/
def poly96P : Nat := ofWords 95 (poly96words defaultFlags)

/-- The 128-bit modulus coefficient vector constructed in main. -/
def poly128P : Nat := ofWords 127 (poly128words defaultFlags)

/- Helper lemmas. -/

theorem getD_range_map {α : Type} (n : Nat) (f : Nat → α) (i : Nat) (d : α)
    (h : i < n) : ((List.range n).map f).getD i d = f i := by
  rw [List.getD_eq_getElem?_getD, List.getElem?_map, List.getElem?_range h]
  rfl

theorem setHigh8Bits_zero (D : Nat) : setHigh8Bits D 0 = 0 := by
  simp [setHigh8Bits]

theorem mulX_zero (D p : Nat) : mulX D p 0 = 0 := by
  simp [mulX]

theorem mulXkmod_zero (D p : Nat) : ∀ k, mulXkmod D k p 0 = 0
  | 0 => rfl
  | k + 1 => by
      show mulXkmod D k p (mulX D p 0) = 0
      rw [mulX_zero]
      exact mulXkmod_zero D p k

theorem tableStates_zero (D p : Nat) : ∀ i, tableStates D p 0 i = 0
  | 0 => by
      show mulXkmod D 8 p (setHigh8Bits D 0) = 0
      rw [setHigh8Bits_zero]
      exact mulXkmod_zero D p 8
  | i + 1 => by
      show mulXkmod D 8 p (tableStates D p 0 i) = 0
      rw [tableStates_zero D p i]
      exact mulXkmod_zero D p 8

theorem setHigh8Bits_lt (D x : Nat) (hD : 7 ≤ D) (hx : x < 256) :
    setHigh8Bits D x < 2 ^ (D + 1) := by
  unfold setHigh8Bits
  calc x * 2 ^ (D + 1 - 8) < 256 * 2 ^ (D + 1 - 8) :=
        mul_lt_mul_of_pos_right hx (Nat.two_pow_pos _)
    _ = 2 ^ 8 * 2 ^ (D + 1 - 8) := by norm_num
    _ = 2 ^ (D + 1) := by
        rw [← Nat.pow_add]
        congr 1
        omega

theorem mulX_lt (D p t : Nat) (hp : p < 2 ^ (D + 1)) (ht : t < 2 ^ (D + 1)) :
    mulX D p t < 2 ^ (D + 1) := by
  unfold mulX
  split
  · exact Nat.xor_lt_two_pow (by omega) hp
  · next h =>
      have h2 : t < 2 ^ D := Nat.lt_of_not_le h
      have h3 : 2 ^ (D + 1) = 2 * 2 ^ D := by
        rw [Nat.pow_succ, Nat.mul_comm]
      omega

theorem mulXkmod_lt (D p : Nat) (hp : p < 2 ^ (D + 1)) :
    ∀ k t, t < 2 ^ (D + 1) → mulXkmod D k p t < 2 ^ (D + 1)
  | 0, _, ht => ht
  | k + 1, t, ht => by
      show mulXkmod D k p (mulX D p t) < 2 ^ (D + 1)
      exact mulXkmod_lt D p hp k _ (mulX_lt D p t hp ht)

theorem tableStates_lt (D p x : Nat) (hD : 7 ≤ D) (hp : p < 2 ^ (D + 1))
    (hx : x < 256) : ∀ i, tableStates D p x i < 2 ^ (D + 1)
  | 0 => mulXkmod_lt D p hp 8 _ (setHigh8Bits_lt D x hD hx)
  | i + 1 => mulXkmod_lt D p hp 8 _ (tableStates_lt D p x hD hp hx i)

theorem two_pow_add_eq_xor (m s : Nat) (hs : s < 2 ^ m) :
    2 ^ m + s = 2 ^ m ^^^ s := by
  apply Nat.eq_of_testBit_eq
  intro i
  rcases Nat.lt_trichotomy i m with hlt | heq | hgt
  · rw [Nat.testBit_two_pow_add_gt hlt, Nat.testBit_xor,
      Nat.testBit_two_pow_of_ne (Nat.ne_of_gt hlt)]
    simp
  · subst heq
    rw [Nat.testBit_two_pow_add_eq, Nat.testBit_xor, Nat.testBit_two_pow_self,
      Nat.testBit_eq_false_of_lt hs]
    simp
  · have hmi : 2 ^ (m + 1) ≤ 2 ^ i := Nat.pow_le_pow_right (by norm_num) hgt
    have hdouble : 2 ^ (m + 1) = 2 * 2 ^ m := by
      rw [Nat.pow_succ, Nat.mul_comm]
    have hsum : 2 ^ m + s < 2 ^ i := by omega
    have hsi : s < 2 ^ i := by omega
    rw [Nat.testBit_eq_false_of_lt hsum, Nat.testBit_xor,
      Nat.testBit_two_pow_of_ne (Nat.ne_of_lt hgt),
      Nat.testBit_eq_false_of_lt hsi]
    rfl

theorem xor_shiftLeft_distrib (a b k : Nat) :
    (a ^^^ b) <<< k = (a <<< k) ^^^ (b <<< k) := by
  apply Nat.eq_of_testBit_eq
  intro i
  simp [Nat.testBit_shiftLeft, Nat.testBit_xor, Bool.and_xor_distrib_left]

theorem xor_cancel_pair (a b c : Nat) : (a ^^^ b) ^^^ (a ^^^ c) = b ^^^ c := by
  rw [Nat.xor_comm a b, Nat.xor_assoc, ← Nat.xor_assoc a a, Nat.xor_self,
    Nat.zero_xor]

/-- One long-division step at the top position tracks one `mulX` step: for a
state `t` of degree at most `D`, eliminating the leading position of
`t <<< (n+1)` and then reducing is reducing `(mulX t) <<< n`. -/
theorem gf2modAux_step (D p t n : Nat) (hp : p < 2 ^ (D + 1))
    (ht : t < 2 ^ (D + 1)) :
    gf2modAux (D + 1) p (n + 1) (t <<< (n + 1)) =
      gf2modAux (D + 1) p n ((mulX D p t) <<< n) := by
  have hdouble : 2 ^ (D + 1) = 2 * 2 ^ D := by
    rw [Nat.pow_succ, Nat.mul_comm]
  have hbit : (t <<< (n + 1)).testBit (D + 1 + n) = t.testBit D := by
    rw [Nat.testBit_shiftLeft, show D + 1 + n - (n + 1) = D from by omega]
    simp [show n + 1 ≤ D + 1 + n from by omega]
  simp only [gf2modAux]
  rw [hbit]
  congr 1
  by_cases hc : 2 ^ D ≤ t
  · have hr : t - 2 ^ D < 2 ^ D := by omega
    have hteq : t = 2 ^ D + (t - 2 ^ D) := by omega
    have hbt : t.testBit D = true := by
      rw [hteq, Nat.testBit_two_pow_add_eq, Nat.testBit_eq_false_of_lt hr]
      rfl
    rw [hbt, if_pos rfl]
    unfold mulX
    rw [if_pos hc]
    have e1 : t * 2 - 2 ^ (D + 1) = (t - 2 ^ D) * 2 := by omega
    have e2 : ((t - 2 ^ D) * 2) <<< n = (t - 2 ^ D) <<< (n + 1) := by
      rw [Nat.shiftLeft_eq, Nat.shiftLeft_eq, Nat.pow_succ]
      ring
    have e3 : t <<< (n + 1) = 2 ^ (D + (n + 1)) ^^^ ((t - 2 ^ D) <<< (n + 1)) := by
      have hb : (t - 2 ^ D) <<< (n + 1) < 2 ^ (D + (n + 1)) := by
        rw [Nat.shiftLeft_eq]
        calc (t - 2 ^ D) * 2 ^ (n + 1) < 2 ^ D * 2 ^ (n + 1) :=
              mul_lt_mul_of_pos_right hr (Nat.two_pow_pos _)
          _ = 2 ^ (D + (n + 1)) := by rw [← Nat.pow_add]
      calc t <<< (n + 1) = (2 ^ D + (t - 2 ^ D)) <<< (n + 1) := by rw [← hteq]
        _ = 2 ^ D * 2 ^ (n + 1) + (t - 2 ^ D) * 2 ^ (n + 1) := by
            rw [Nat.shiftLeft_eq, Nat.add_mul]
        _ = 2 ^ (D + (n + 1)) + (t - 2 ^ D) <<< (n + 1) := by
            rw [← Nat.pow_add, Nat.shiftLeft_eq]
        _ = 2 ^ (D + (n + 1)) ^^^ ((t - 2 ^ D) <<< (n + 1)) :=
            two_pow_add_eq_xor _ _ hb
    have e4 : (2 ^ (D + 1) + p) <<< n = 2 ^ (D + (n + 1)) ^^^ (p <<< n) := by
      have hb : p <<< n < 2 ^ (D + (n + 1)) := by
        rw [Nat.shiftLeft_eq]
        calc p * 2 ^ n < 2 ^ (D + 1) * 2 ^ n :=
              mul_lt_mul_of_pos_right hp (Nat.two_pow_pos _)
          _ = 2 ^ (D + (n + 1)) := by
              rw [← Nat.pow_add, show D + 1 + n = D + (n + 1) from by omega]
      calc (2 ^ (D + 1) + p) <<< n
          = 2 ^ (D + 1) * 2 ^ n + p * 2 ^ n := by
            rw [Nat.shiftLeft_eq, Nat.add_mul]
        _ = 2 ^ (D + (n + 1)) + p <<< n := by
            rw [← Nat.pow_add, Nat.shiftLeft_eq,
              show D + 1 + n = D + (n + 1) from by omega]
        _ = 2 ^ (D + (n + 1)) ^^^ (p <<< n) := two_pow_add_eq_xor _ _ hb
    rw [e1, xor_shiftLeft_distrib, e2, e3, e4, xor_cancel_pair]
  · have hlt : t < 2 ^ D := Nat.lt_of_not_le hc
    have hbf : t.testBit D = false := Nat.testBit_eq_false_of_lt hlt
    rw [hbf, if_neg Bool.false_ne_true]
    unfold mulX
    rw [if_neg hc, Nat.shiftLeft_eq, Nat.shiftLeft_eq, Nat.pow_succ]
    ring

/-- Iterating the engine's multiply-by-X step `n` times on a reduced state is
the independent long division of the `n`-fold shifted state. -/
theorem mulX_iterate_eq_gf2modAux (D p : Nat) (hp : p < 2 ^ (D + 1)) :
    ∀ n t, t < 2 ^ (D + 1) → (mulX D p)^[n] t = gf2modAux (D + 1) p n (t <<< n)
  | 0, t, _ => by simp [gf2modAux]
  | n + 1, t, ht => by
      rw [Function.iterate_succ_apply, gf2modAux_step D p t n hp ht]
      exact mulX_iterate_eq_gf2modAux D p hp n (mulX D p t) (mulX_lt D p t hp ht)

theorem mulXkmod_eq_iterate (D p : Nat) : ∀ k t, mulXkmod D k p t = (mulX D p)^[k] t
  | 0, _ => rfl
  | k + 1, t => by
      show mulXkmod D k p (mulX D p t) = _
      rw [mulXkmod_eq_iterate D p k (mulX D p t), ← Function.iterate_succ_apply]

theorem tableStates_eq_iterate (D p x i : Nat) :
    tableStates D p x i = (mulXkmod D 8 p)^[i + 1] (setHigh8Bits D x) := by
  induction i with
  | zero => rfl
  | succ n ih =>
      show mulXkmod D 8 p (tableStates D p x n) = _
      rw [ih]
      exact (Function.iterate_succ_apply' (mulXkmod D 8 p) (n + 1)
        (setHigh8Bits D x)).symm

/-- The builder state for byte `x` at fold position `i` is the independent
long-division remainder of `Q_x(X) * X^((DEG+1) + 8*i)` modulo `P`. -/
theorem tableStates_eq_longdiv (D p x i : Nat) (hD : 7 ≤ D)
    (hp : p < 2 ^ (D + 1)) (hx : x < 256) :
    tableStates D p x i = gf2mod (D + 1) p (8 * i + 8) (x * 2 ^ (D + 1 + 8 * i)) := by
  rw [tableStates_eq_iterate,
    show mulXkmod D 8 p = (mulX D p)^[8] from funext (mulXkmod_eq_iterate D p 8),
    ← Function.iterate_mul,
    mulX_iterate_eq_gf2modAux D p hp (8 * (i + 1)) _ (setHigh8Bits_lt D x hD hx)]
  unfold gf2mod
  have harg : setHigh8Bits D x <<< (8 * (i + 1)) = x * 2 ^ (D + 1 + 8 * i) := by
    rw [Nat.shiftLeft_eq]
    unfold setHigh8Bits
    rw [Nat.mul_assoc, ← Nat.pow_add,
      show D + 1 - 8 + 8 * (i + 1) = D + 1 + 8 * i from by omega]
  rw [harg, show 8 * (i + 1) = 8 * i + 8 from by omega]

/- Claim theorems. -/

/-- C1 counterexample: the spec formula with exponent `(DEG+1) + 8*(i+1)` fails
already at `DEG = 63`, `x = 1`, `i = 0`, `w = 0`: the generated table word is
the remainder of `X^64 mod P`, not of `X^72 mod P`. -/
theorem fold_table_spec_exponent_false :
    wordOf 63 (tableStates 63 poly64P 1 0) 0 ≠
      wordOf 63 (gf2mod 64 poly64P 16 (1 * 2 ^ (64 + 8 * (0 + 1)))) 0 := by
  decide

/-- C1 (amended): for every width `DEG ≥ 7` (covering 63, 95, 127) with any
in-range modulus, every fold position `i`, byte `x` and word index `w`, the
generated entry `table[i][x][w]` equals word `w` of
`Q_x(X) * X^((DEG+1) + 8*i) mod P` computed by independent long division,
where `Q_x` is the degree-at-most-7 polynomial of the bits of `x`
(the spec exponent `8*(i+1)` is corrected to `8*i`). -/
theorem fold_table_matches_longdiv (D p x i w : Nat) (hD : 7 ≤ D)
    (hp : p < 2 ^ (D + 1)) (hx : x < 256) (hi : i < 8) (hw : w < fpsize D) :
    (((computeTables D p).table.getD i []).getD x []).getD w 0 =
      wordOf D (gf2mod (D + 1) p (8 * i + 8) (x * 2 ^ (D + 1 + 8 * i))) w := by
  unfold computeTables
  rw [getD_range_map 8 _ i [] hi, getD_range_map 256 _ x [] hx]
  unfold write
  rw [getD_range_map (fpsize D) _ w 0 hw,
    tableStates_eq_longdiv D p x i hD hp hx]

/-- C1 witness at `DEG = 63`, the configured modulus, byte 1, fold position 0,
word 0. -/
theorem fold_table_matches_longdiv_witness :
    7 ≤ 63 ∧ poly64P < 2 ^ (63 + 1) ∧ 1 < 256 ∧ 0 < 8 ∧ 0 < fpsize 63 ∧
    (((computeTables 63 poly64P).table.getD 0 []).getD 1 []).getD 0 0 =
      wordOf 63 (gf2mod (63 + 1) poly64P (8 * 0 + 8) (1 * 2 ^ (63 + 1 + 8 * 0))) 0 :=
  ⟨by norm_num, by decide, by norm_num, by norm_num, by decide,
    fold_table_matches_longdiv 63 poly64P 1 0 0 (by norm_num) (by decide)
      (by norm_num) (by norm_num) (by decide)⟩

/-- C2: the builder's cumulative in-place computation agrees with recomputing
from scratch — for every width, modulus, byte and fold position, the shared
state `tableStates D p x i` equals `mulXkmod(8, P)` applied exactly `i+1`
times to a fresh polynomial initialized via `setHigh8Bits x`; the state is a
function of `x` and `i` alone, so no hidden state crosses byte values. -/
theorem builder_equals_iterated_primitive (D p x i : Nat) :
    tableStates D p x i = (mulXkmod D 8 p)^[i + 1] (setHigh8Bits D x) :=
  tableStates_eq_iterate D p x i

/-- C3 counterexample: with `DEG = 63` and the configured modulus,
`setHigh8Bits(1)` followed by one `mulXkmod(8, P)` does not equal
`X^8 mod P` (which independent long division leaves as `X^8` itself, the
word value 256): the byte is planted at the top of the vector, so one
`mulXkmod(8, P)` yields `X^64 mod P` instead. -/
theorem x8_regression_false :
    gf2mod 64 poly64P 16 (2 ^ 8) = 2 ^ 8 ∧
    mulXkmod 63 8 poly64P (setHigh8Bits 63 1) ≠ 2 ^ 8 := by
  decide

/-- C3 (amended): with `DEG = 63` and the configured modulus, `setHigh8Bits(1)`
followed by one `mulXkmod(8, P)` equals `X^64 mod P` as computed by
independent long division; `table[0][1]` holds exactly this word, the fixed
regression value 13778541736389896631 (hex bf3736b51869e9b7). -/
theorem concrete_regression_vector :
    mulXkmod 63 8 poly64P (setHigh8Bits 63 1) = gf2mod 64 poly64P 16 (2 ^ 64) ∧
    wordOf 63 (tableStates 63 poly64P 1 0) 0 = gf2mod 64 poly64P 16 (2 ^ 64) ∧
    gf2mod 64 poly64P 16 (2 ^ 64) = 13778541736389896631 := by
  decide

/-- C4: for every width, modulus and fold position, the byte value 0 yields
the zero polynomial at every step (zero is absorbing under multiplication),
so the generated entry `table[i][0]` is the all-zero word vector. -/
theorem zero_byte_rows_all_zero (D p i : Nat) :
    write D (tableStates D p 0 i) = List.replicate (fpsize D) 0 := by
  rw [tableStates_zero]
  have h : ∀ w, wordOf D 0 w = 0 := by
    intro w
    simp [wordOf]
  calc write D 0 = (List.range (fpsize D)).map (fun _ => 0) := by
        unfold write
        exact List.map_congr_left fun w _ => h w
    _ = List.replicate (fpsize D) 0 := by
        rw [List.map_const', List.length_range]

/-- C5 counterexample: the clause that no coefficient word has a set bit at or
above position `(DEG+1) mod 64` of its most-significant word fails at
`DEG = 63`, where `(DEG+1) mod 64 = 0`: the most-significant (only) word of
the reachable state `tableStates 63 P 1 0` has bit 63 set. -/
theorem degree_invariant_msw_false :
    (wordOf 63 (tableStates 63 poly64P 1 0) 0).testBit 63 = true ∧
    (63 + 1) % 64 ≤ 63 := by
  decide

/-- C5 (amended): every state reachable through `setHigh8Bits` and `mulXkmod`
(in particular every value behind the fold table) has all coefficient bits
above degree `DEG` equal to zero, given a byte input and a lower-modulus part
within the representable range. -/
theorem degree_invariant_above_deg (D p x : Nat) (hD : 7 ≤ D)
    (hp : p < 2 ^ (D + 1)) (hx : x < 256) (i j : Nat) (hj : D < j) :
    (tableStates D p x i).testBit j = false := by
  apply Nat.testBit_eq_false_of_lt
  calc tableStates D p x i < 2 ^ (D + 1) := tableStates_lt D p x hD hp hx i
    _ ≤ 2 ^ j := Nat.pow_le_pow_right (by norm_num) (by omega)

/-- C5 witness at `DEG = 63`, the configured modulus, byte 1, fold position 0,
bit position 64. -/
theorem degree_invariant_above_deg_witness :
    7 ≤ 63 ∧ poly64P < 2 ^ 64 ∧ 1 < 256 ∧ 63 < 64 ∧
    (tableStates 63 poly64P 1 0).testBit 64 = false :=
  ⟨by norm_num, by decide, by norm_num, by norm_num,
    degree_invariant_above_deg 63 poly64P 1 (by norm_num) (by decide)
      (by norm_num) 0 64 (by norm_num)⟩

/-- C6: for every width and modulus the fold table has exactly 8 fold
positions, each with exactly 256 byte rows, each entry holding `fpsize DEG`
words, as does the modulus record; and the word count equals
`ceil((DEG+1)/64)`, which is 1 for `DEG = 63` and 2 for `DEG = 95, 127`. -/
theorem table_dimensions (D p : Nat) :
    (computeTables D p).table.length = 8 ∧
    (∀ i, i < 8 → ((computeTables D p).table.getD i []).length = 256) ∧
    (∀ i x, i < 8 → x < 256 →
      (((computeTables D p).table.getD i []).getD x []).length = fpsize D) ∧
    (computeTables D p).polyRecord.length = fpsize D ∧
    fpsize D = (D + 1 + 63) / 64 ∧ fpsize 63 = 1 ∧ fpsize 95 = 2 ∧
    fpsize 127 = 2 := by
  refine ⟨by simp [computeTables], ?_, ?_, ?_, ?_, rfl, rfl, rfl⟩
  · intro i hi
    unfold computeTables
    rw [getD_range_map 8 _ i [] hi]
    simp
  · intro i x hi hx
    unfold computeTables
    rw [getD_range_map 8 _ i [] hi, getD_range_map 256 _ x [] hx]
    simp [write]
  · simp [computeTables, write]
  · unfold fpsize
    omega

/-- C6 witness at `DEG = 63`, the configured modulus, indices 0 and 0. -/
theorem table_dimensions_witness :
    ((computeTables 63 poly64P).table.getD 0 []).length = 256 ∧
    (((computeTables 63 poly64P).table.getD 0 []).getD 0 []).length =
      fpsize 63 :=
  ⟨(table_dimensions 63 poly64P).2.1 0 (by norm_num),
    (table_dimensions 63 poly64P).2.2.1 0 0 (by norm_num) (by norm_num)⟩

/-- C7: the generator is deterministic — two runs given the same configuration
constants produce identical fold tables and polynomial records, word for word
(the output is a function of the constants alone). -/
theorem generator_deterministic (c1 c2 : Config) (h : c1 = c2) :
    mainOutput c1 = mainOutput c2 := by
  rw [h]

/-- C7 witness: two runs on the default constants agree. -/
theorem generator_deterministic_witness :
    mainOutput defaultFlags = mainOutput defaultFlags :=
  generator_deterministic defaultFlags defaultFlags rfl

/-- C8: cross-width noninterference — two runs that agree on the 64-bit and
128-bit constants (hence may differ only in the 96-bit constants) produce
identical 64-bit and 128-bit outputs, fold tables and records alike. -/
theorem width96_noninterference (c1 c2 : Config) (h64 : c1.poly64 = c2.poly64)
    (hm : c1.poly128_m = c2.poly128_m) (hl : c1.poly128_l = c2.poly128_l) :
    out64 c1 = out64 c2 ∧ out128 c1 = out128 c2 := by
  unfold out64 out128 poly64words poly128words
  rw [h64, hm, hl]
  exact ⟨rfl, rfl⟩

/-- C8 witness: the default constants against a configuration altered only in
the 96-bit modulus constants. -/
theorem width96_noninterference_witness :
    defaultFlags.poly64 = altFlags.poly64 ∧
    defaultFlags.poly128_m = altFlags.poly128_m ∧
    defaultFlags.poly128_l = altFlags.poly128_l ∧
    (out64 defaultFlags = out64 altFlags ∧
      out128 defaultFlags = out128 altFlags) :=
  ⟨rfl, rfl, rfl,
    width96_noninterference defaultFlags altFlags rfl rfl rfl⟩

/-- C9: `computeTables` leaves its modulus argument unchanged — in this pure
embedding the emitted polynomial record is exactly the serialization of the
argument, and for each width that record equals the word array constructed in
main, so the modulus survives the call intact. -/
theorem modulus_preserved_record :
    (∀ D p : Nat, (computeTables D p).polyRecord = write D p) ∧
    write 63 poly64P = poly64words defaultFlags ∧
    write 95 poly96P = poly96words defaultFlags ∧
    write 127 poly128P = poly128words defaultFlags :=
  ⟨fun _ _ => rfl, by decide, by decide, by decide⟩

/-- C10: modulus word layout at construction — the 96-bit word array is
`[poly96_m, poly96_l <<< 32]` with the low 32 bits of word 1 zero, the 128-bit
word array is `[poly128_m, poly128_l]` unshifted, and the 64-bit word is the
`poly64` flag reinterpreted bit-for-bit from signed to unsigned 64-bit. -/
theorem modulus_word_layout :
    poly96words defaultFlags = [0x51555cb0aa8d39c3, (0xb679ec37 : Nat) <<< 32] ∧
    (poly96words defaultFlags).getD 1 0 % 2 ^ 32 = 0 ∧
    poly128words defaultFlags = [0xc91bff9b8768b51b, 0x8c5d5853bd77b0d3] ∧
    poly64words defaultFlags = [0xbf3736b51869e9b7] := by
  decide

end FP
